import Mathlib

set_option autoImplicit false
set_option maxHeartbeats 1000000

/-!
Shallow embedding of `src/server/modules/text_splitter.py`.

Texts are `List Char` (Python strings are codepoint sequences and the source
indexes and slices them by codepoint).  The external tokenizer is modelled by
an arbitrary counting function `tok : List Char → Nat`; the source's
`get_token_count` calls `tokenizer.encode(segment, truncation=True,
max_length=max_tokens + 1)` and takes the length of the result, which caps the
reported count at `max_tokens + 1`, so it is embedded as
`min (tok segment) (max_tokens + 1)`.  The separator classifier `get_weight`
(source lines 16-27) queries Unicode property regexes; the splitting algorithm
is embedded parametrically in a classifier `gw : Char → Nat`, and a concrete
fragment of the classifier (agreeing with the regexes on the characters it
handles) is provided for concrete evaluations.  Python `raise ValueError`
becomes an `Except` error result; the two distinct raises of the source are
distinguished by constructor.  The recursion of `split_by_weight` on the
descending weight tier is embedded with an explicit fuel parameter, with a
distinguished `depthExceeded` result when the fuel runs out; the top-level
call supplies fuel `PARAGRAPH_SEPARATOR_WEIGHT + 1 = 5`, and it is proved
below that this fuel is never exhausted.
-/

/-- Outcomes of the two `raise ValueError` sites of the source
(`max_tokens must be a positive integer` and
`Cannot split segment/remaining text within token limit`), plus the
fuel-exhaustion marker of the embedding. -/
inductive SplitError where
  | configError
  | unsplittable
  | depthExceeded
  deriving DecidableEq, Repr

/-- A chunk triple `(start_index, chunk_text, token_count)` as returned by the
source functions. -/
structure Chunk where
  start_idx : Nat
  text : List Char
  token_count : Nat
  deriving DecidableEq, Repr

/-- Source line 6-13: separator weight constants. -/
def PARAGRAPH_SEPARATOR_WEIGHT : Nat := 4

def SENTENCE_TERMINATOR_WEIGHT : Nat := 3

def OTHER_PUNCTUATION_WEIGHT : Nat := 2

def SPACE_WEIGHT : Nat := 1

def NO_WEIGHT : Nat := 0

/-- Source lines 46-55: `get_token_count(segment)` returns
`len(tokenizer.encode(segment, add_special_tokens=True, truncation=True,
max_length=max_tokens + 1))`; truncation caps the returned length at
`max_tokens + 1`. -/
def get_token_count (tok : List Char → Nat) (max_tokens : Nat)
    (segment : List Char) : Nat :=
  min (tok segment) (max_tokens + 1)

/-- Python slice `s[a:b]` for `0 ≤ a ≤ b ≤ len s` (the only shapes the source
uses). -/
def pySlice (s : List Char) (a b : Nat) : List Char :=
  (s.take b).drop a

/-- The Unicode whitespace codepoints recognised by Python `str.strip()` /
`str.isspace()`; the source's `optimized[-1][1].strip() == ""` test holds
exactly when every character of the text satisfies this predicate. -/
def pyIsSpace (c : Char) : Bool :=
  decide ((0x09 ≤ c.toNat ∧ c.toNat ≤ 0x0d) ∨ (0x1c ≤ c.toNat ∧ c.toNat ≤ 0x1f) ∨
    c.toNat = 0x20 ∨ c.toNat = 0x85 ∨ c.toNat = 0xa0 ∨ c.toNat = 0x1680 ∨
    (0x2000 ≤ c.toNat ∧ c.toNat ≤ 0x200a) ∨ c.toNat = 0x2028 ∨ c.toNat = 0x2029 ∨
    c.toNat = 0x202f ∨ c.toNat = 0x205f ∨ c.toNat = 0x3000)

/-- A concrete fragment of the source's `get_weight` classifier (lines 16-27),
agreeing with the regex classes on the characters it distinguishes:
`\n`, `\r` match `[\n\r]`; `.`, `!`, `?` carry the Unicode `STerm` property;
`,`, `;`, `:` are in category `Po`; the space is in category `Zs`.
The verification theorems below are parametric in the classifier. -/
def get_weight_ascii (char : Char) : Nat :=
  if char = '\n' ∨ char = '\r' then PARAGRAPH_SEPARATOR_WEIGHT
  else if char = '.' ∨ char = '!' ∨ char = '?' then SENTENCE_TERMINATOR_WEIGHT
  else if char = ',' ∨ char = ';' ∨ char = ':' then OTHER_PUNCTUATION_WEIGHT
  else if char = ' ' then SPACE_WEIGHT
  else NO_WEIGHT

/-- The scanning loop of `split_by_weight` (source lines 143-231), including
the post-loop handling of the remaining text and the final pending-chunk
append.  State mirrors the source's locals: the loop index `i`, `current_pos`,
`current_chunk_start`, the pending chunk `current_chunk` (the source keeps a
list of segment strings and joins them on finalisation; the embedding keeps
the joined character list directly), `current_chunk_tokens`, and the output
accumulator `chunks`.  `steps` counts the loop iterations still to run; every
call keeps `steps + i = text.length`, so `steps = 0` is exactly the loop exit
`i ≥ len(text)`.  `recur` is the recursive call at the next-lower weight tier
(`split_by_weight(segment, weight - 1, start)`), supplied by
`split_by_weight` itself.

Note the faithful reproduction of a source asymmetry: the in-loop
finalisation (lines 168-175) resets `current_chunk` and
`current_chunk_tokens`, but the post-loop finalisation (lines 206-211) does
not, so when the remaining text does not fit together with a nonempty pending
chunk, the final append of lines 227-229 emits the pending chunk a second
time. -/
def sbw_loop (gw : Char → Nat) (tok : List Char → Nat) (m : Nat)
    (recur : Nat → List Char → Except SplitError (List Chunk))
    (w : Nat) (text : List Char) :
    Nat → Nat → Nat → Nat → List Char → Nat → List Chunk →
    Except SplitError (List Chunk)
  | Nat.succ steps, i, current_pos, current_chunk_start, current_chunk,
      current_chunk_tokens, chunks =>
    let char := text.getD i ' '
    let char_weight := gw char
    if w ≤ char_weight then
      let segment := pySlice text current_pos (i + 1)
      let segment_tokens := get_token_count tok m segment
      if current_chunk_tokens + segment_tokens ≤ m then
        sbw_loop gw tok m recur w text steps (i + 1) (i + 1) current_chunk_start
          (current_chunk ++ segment) (current_chunk_tokens + segment_tokens) chunks
      else
        let chunks' := if current_chunk = [] then chunks else
          chunks ++ [⟨current_chunk_start, current_chunk, current_chunk_tokens⟩]
        let start' := if current_chunk = [] then current_chunk_start else
          current_chunk_start + current_chunk.length
        if m < segment_tokens ∧ 0 < w then
          match recur start' segment with
          | .error e => .error e
          | .ok sub_chunks =>
            sbw_loop gw tok m recur w text steps (i + 1) (i + 1)
              (start' + segment.length) []
              (if current_chunk = [] then current_chunk_tokens else 0)
              (chunks' ++ sub_chunks)
        else if segment_tokens ≤ m then
          sbw_loop gw tok m recur w text steps (i + 1) (i + 1) start'
            segment segment_tokens chunks'
        else
          .error .unsplittable
    else
      sbw_loop gw tok m recur w text steps (i + 1) current_pos
        current_chunk_start current_chunk current_chunk_tokens chunks
  | 0, _i, current_pos, current_chunk_start, current_chunk,
      current_chunk_tokens, chunks =>
    if current_pos < text.length then
      let remaining := pySlice text current_pos text.length
      let remaining_tokens := get_token_count tok m remaining
      if current_chunk_tokens + remaining_tokens ≤ m then
        .ok (chunks ++ [⟨current_chunk_start, current_chunk ++ remaining,
          current_chunk_tokens + remaining_tokens⟩])
      else
        let chunks' := if current_chunk = [] then chunks else
          chunks ++ [⟨current_chunk_start, current_chunk, current_chunk_tokens⟩]
        let start' := if current_chunk = [] then current_chunk_start else
          current_chunk_start + current_chunk.length
        if m < remaining_tokens ∧ 0 < w then
          match recur start' remaining with
          | .error e => .error e
          | .ok sub_chunks =>
            .ok (if current_chunk = [] then chunks' ++ sub_chunks else
              (chunks' ++ sub_chunks) ++
                [⟨start', current_chunk, current_chunk_tokens⟩])
        else if remaining_tokens ≤ m then
          .ok (if current_chunk = [] then
              chunks' ++ [⟨start', remaining, remaining_tokens⟩]
            else
              chunks' ++ [⟨start', remaining, remaining_tokens⟩,
                ⟨start', current_chunk, current_chunk_tokens⟩])
        else
          .error .unsplittable
    else
      .ok (if current_chunk = [] then chunks else
        chunks ++ [⟨current_chunk_start, current_chunk, current_chunk_tokens⟩])

/-- Source lines 139-231: `split_by_weight(text, weight, start_idx)`, with an
explicit fuel bounding the depth of the weight-descending recursion. -/
def split_by_weight (gw : Char → Nat) (tok : List Char → Nat) (m : Nat) :
    Nat → Nat → Nat → List Char → Except SplitError (List Chunk)
  | 0, _weight, _start_idx, _text => .error .depthExceeded
  | Nat.succ fuel, weight, start_idx, text =>
    sbw_loop gw tok m
      (fun s seg => split_by_weight gw tok m fuel (weight - 1) s seg)
      weight text text.length 0 0 start_idx [] 0 []

/-- The redistribution scan of `optimize_chunks` (source lines 82-110):
`for j in range(len(current_text) - 1, 0, -1)`, carrying `best_split_idx` and
`best_split_weight` (initialised `None` and `-1`); a position is adopted only
when its character's weight strictly exceeds the last adopted weight and both
the prefix and the suffix-plus-next spans fit the budget. -/
def best_split_scan (gw : Char → Nat) (tok : List Char → Nat) (m : Nat)
    (current_text next_text : List Char) :
    Nat → Option Nat → Int → Option Nat
  | 0, best_split_idx, _best_split_weight => best_split_idx
  | Nat.succ j, best_split_idx, best_split_weight =>
    let char_weight := gw (current_text.getD (j + 1) ' ')
    if best_split_weight < (char_weight : Int) then
      let split_pos := j + 1 + 1
      if split_pos ≤ current_text.length then
        let potential_first := current_text.take split_pos
        let potential_next := current_text.drop split_pos ++ next_text
        if get_token_count tok m potential_first ≤ m ∧
            get_token_count tok m potential_next ≤ m then
          best_split_scan gw tok m current_text next_text j (some split_pos)
            (char_weight : Int)
        else
          best_split_scan gw tok m current_text next_text j best_split_idx
            best_split_weight
      else
        best_split_scan gw tok m current_text next_text j best_split_idx
          best_split_weight
    else
      best_split_scan gw tok m current_text next_text j best_split_idx
        best_split_weight

/-- The main pass of `optimize_chunks` (source lines 64-132).  The source
walks an index `i`, appending to `optimized`, merging `(current, next)` when
the combination fits (then skipping both), otherwise redistributing via the
best-split scan (replacing `chunks[i+1]` in place) or keeping `current`
unchanged; finally the last chunk is appended if it was not consumed.  The
embedding phrases the same computation as recursion on the chunk list;
`steps` starts at the list length (the index never outruns it, so the
fallback arm for exhausted `steps` is never reached on real calls). -/
def opt_loop (gw : Char → Nat) (tok : List Char → Nat) (m : Nat) :
    Nat → List Chunk → List Chunk
  | Nat.succ steps, current :: next :: rest =>
    let combined_text := current.text ++ next.text
    let combined_tokens := get_token_count tok m combined_text
    if combined_tokens ≤ m then
      ⟨current.start_idx, combined_text, combined_tokens⟩ ::
        opt_loop gw tok m steps rest
    else
      match best_split_scan gw tok m current.text next.text
          (current.text.length - 1) none (-1) with
      | some best_split_idx =>
        let first_part := current.text.take best_split_idx
        let second_part := current.text.drop best_split_idx ++ next.text
        ⟨current.start_idx, first_part, get_token_count tok m first_part⟩ ::
          opt_loop gw tok m steps
            (⟨current.start_idx + best_split_idx, second_part,
              get_token_count tok m second_part⟩ :: rest)
      | none =>
        current :: opt_loop gw tok m steps (next :: rest)
  | _steps, chunks => chunks

/-- Source lines 57-137: `optimize_chunks(chunks)`, including the early return
for at most one chunk and the final drop of a trailing chunk whose text is
empty after whitespace-stripping. -/
def optimize_chunks (gw : Char → Nat) (tok : List Char → Nat) (m : Nat)
    (chunks : List Chunk) : List Chunk :=
  if chunks.length ≤ 1 then chunks
  else
    let optimized := opt_loop gw tok m chunks.length chunks
    match optimized.getLast? with
    | some last => if last.text.all pyIsSpace then optimized.dropLast else optimized
    | none => optimized

/-- Source lines 30-240: `split_text_into_chunks(text, tokenizer, max_tokens,
optimize=True)`.  `max_tokens` is an integer parameter checked to be positive
up front (the source also rejects non-`int` values, which a typed embedding
cannot represent); the initial split runs at the paragraph tier with fuel
`PARAGRAPH_SEPARATOR_WEIGHT + 1`. -/
def split_text_into_chunks (gw : Char → Nat) (tok : List Char → Nat)
    (max_tokens : Int) (optimize : Bool) (text : List Char) :
    Except SplitError (List Chunk) :=
  if max_tokens ≤ 0 then .error .configError
  else
    match split_by_weight gw tok max_tokens.toNat
        (PARAGRAPH_SEPARATOR_WEIGHT + 1) PARAGRAPH_SEPARATOR_WEIGHT 0 text with
    | .error e => .error e
    | .ok initial_chunks =>
      if optimize then
        .ok (optimize_chunks gw tok max_tokens.toNat initial_chunks)
      else
        .ok initial_chunks

/-- Concatenation of the texts of a chunk list, in order. -/
def concatTexts (chunks : List Chunk) : List Char :=
  (chunks.map Chunk.text).flatten

/-- The weight of the character immediately before a proposed split position
`p` (the scan at source line 86 reads `current_text[j]` and proposes
`split_pos = j + 1`). -/
def posWeight (gw : Char → Nat) (current_text : List Char) (p : Nat) : Nat :=
  gw (current_text.getD (p - 1) ' ')

/-- Validity of a redistribution split position `p` of `current_text` against
`next_text` (source lines 97-108): both the prefix and the suffix-plus-next
spans fit the budget. -/
def validSplit (tok : List Char → Nat) (m : Nat)
    (current_text next_text : List Char) (p : Nat) : Prop :=
  get_token_count tok m (current_text.take p) ≤ m ∧
    get_token_count tok m (current_text.drop p ++ next_text) ≤ m

/-- A counting function that distributes over concatenation (no per-call
overhead such as special tokens). -/
def AdditiveCount (tok : List Char → Nat) : Prop :=
  ∀ a b : List Char, tok (a ++ b) = tok a + tok b

/-- Whether a splitter result is the embedding's fuel-exhaustion marker. -/
def is_depth_exceeded : Except SplitError (List Chunk) → Bool
  | .error .depthExceeded => true
  | _ => false

/- Concrete counting functions used for concrete evaluations. -/

/-- One token per character. -/
def tokLen : List Char → Nat := List.length

/-- One token per character plus one (a per-call special token). -/
def tokLenSucc : List Char → Nat := fun s => s.length + 1

/-- Constant count. -/
def tokOne : List Char → Nat := fun _ => 1

/-- A counting function that is cheap everywhere except on the single
character `x`. -/
def tokSpike : List Char → Nat := fun s => if s = ['x'] then 100 else 1

/-! ### Budget invariant: every emitted chunk's token count stays within `m` -/

theorem sbw_loop_tokens_le (gw : Char → Nat) (tok : List Char → Nat) (m : Nat)
    (recur : Nat → List Char → Except SplitError (List Chunk))
    (w : Nat) (text : List Char)
    (hrec : ∀ s seg r, recur s seg = .ok r → ∀ c ∈ r, c.token_count ≤ m) :
    ∀ (steps i current_pos current_chunk_start : Nat) (current_chunk : List Char)
      (current_chunk_tokens : Nat) (chunks res : List Chunk),
      current_chunk_tokens ≤ m → (∀ c ∈ chunks, c.token_count ≤ m) →
      sbw_loop gw tok m recur w text steps i current_pos current_chunk_start
        current_chunk current_chunk_tokens chunks = .ok res →
      ∀ c ∈ res, c.token_count ≤ m := by
  intro steps
  induction steps with
  | zero =>
    intro i current_pos current_chunk_start current_chunk current_chunk_tokens
      chunks res hcc hacc h
    simp only [sbw_loop] at h
    by_cases hce : current_chunk = [] <;> simp only [hce, if_true, if_false, ite_true, ite_false, if_pos, if_neg, not_false_iff] at h <;>
      split at h
    case pos.isTrue =>
      split at h
      · rename_i hfit
        rw [Except.ok.injEq] at h; subst h
        intro c hc
        rcases List.mem_append.mp hc with hc | hc
        · exact hacc c hc
        · rw [List.mem_singleton] at hc; subst hc; exact hfit
      · split at h
        · split at h
          · exact absurd h (by simp)
          · rename_i sub_chunks hsub
            rw [Except.ok.injEq] at h; subst h
            intro c hc
            rcases List.mem_append.mp hc with hc | hc
            · exact hacc c hc
            · exact hrec _ _ _ hsub c hc
        · split at h
          · rename_i hfit2
            rw [Except.ok.injEq] at h; subst h
            intro c hc
            rcases List.mem_append.mp hc with hc | hc
            · exact hacc c hc
            · rw [List.mem_singleton] at hc; subst hc; exact hfit2
          · exact absurd h (by simp)
    case pos.isFalse =>
      rw [Except.ok.injEq] at h; subst h
      exact hacc
    case neg.isTrue =>
      split at h
      · rename_i hfit
        rw [Except.ok.injEq] at h; subst h
        intro c hc
        rcases List.mem_append.mp hc with hc | hc
        · exact hacc c hc
        · rw [List.mem_singleton] at hc; subst hc; exact hfit
      · split at h
        · split at h
          · exact absurd h (by simp)
          · rename_i sub_chunks hsub
            rw [Except.ok.injEq] at h; subst h
            intro c hc
            rcases List.mem_append.mp hc with hc | hc
            · rcases List.mem_append.mp hc with hc | hc
              · rcases List.mem_append.mp hc with hc | hc
                · exact hacc c hc
                · rw [List.mem_singleton] at hc; subst hc; exact hcc
              · exact hrec _ _ _ hsub c hc
            · rw [List.mem_singleton] at hc; subst hc; exact hcc
        · split at h
          · rename_i hfit2
            rw [Except.ok.injEq] at h; subst h
            intro c hc
            simp only [List.mem_append, List.mem_cons, List.mem_singleton,
              List.not_mem_nil, or_false] at hc
            rcases hc with (hc | hc) | hc | hc
            · exact hacc c hc
            · subst hc; exact hcc
            · subst hc; exact hfit2
            · subst hc; exact hcc
          · exact absurd h (by simp)
    case neg.isFalse =>
      rw [Except.ok.injEq] at h; subst h
      intro c hc
      rcases List.mem_append.mp hc with hc | hc
      · exact hacc c hc
      · rw [List.mem_singleton] at hc; subst hc; exact hcc
  | succ steps ih =>
    intro i current_pos current_chunk_start current_chunk current_chunk_tokens
      chunks res hcc hacc h
    simp only [sbw_loop] at h
    by_cases hce : current_chunk = [] <;> simp only [hce, if_true, if_false, ite_true, ite_false] at h <;>
      split at h
    case pos.isTrue =>
      split at h
      · rename_i hfit
        exact ih _ _ _ _ _ _ _ hfit hacc h
      · split at h
        · split at h
          · exact absurd h (by simp)
          · rename_i sub_chunks hsub
            refine ih _ _ _ _ _ _ _ hcc ?_ h
            intro c hc
            rcases List.mem_append.mp hc with hc | hc
            · exact hacc c hc
            · exact hrec _ _ _ hsub c hc
        · split at h
          · rename_i hnofit hfit2
            refine ih _ _ _ _ _ _ _ ?_ hacc h
            omega
          · exact absurd h (by simp)
    case pos.isFalse =>
      exact ih _ _ _ _ _ _ _ hcc hacc h
    case neg.isTrue =>
      split at h
      · rename_i hfit
        exact ih _ _ _ _ _ _ _ hfit hacc h
      · split at h
        · split at h
          · exact absurd h (by simp)
          · rename_i sub_chunks hsub
            refine ih _ _ _ _ _ _ _ (by omega) ?_ h
            intro c hc
            rcases List.mem_append.mp hc with hc | hc
            · rcases List.mem_append.mp hc with hc | hc
              · exact hacc c hc
              · rw [List.mem_singleton] at hc; subst hc; exact hcc
            · exact hrec _ _ _ hsub c hc
        · split at h
          · rename_i hnofit hfit2
            refine ih _ _ _ _ _ _ _ ?_ ?_ h
            · omega
            · intro c hc
              rcases List.mem_append.mp hc with hc | hc
              · exact hacc c hc
              · rw [List.mem_singleton] at hc; subst hc; exact hcc
          · exact absurd h (by simp)
    case neg.isFalse =>
      exact ih _ _ _ _ _ _ _ hcc hacc h

theorem split_by_weight_tokens_le (gw : Char → Nat) (tok : List Char → Nat)
    (m : Nat) :
    ∀ (fuel weight start_idx : Nat) (text : List Char) (res : List Chunk),
      split_by_weight gw tok m fuel weight start_idx text = .ok res →
      ∀ c ∈ res, c.token_count ≤ m := by
  intro fuel
  induction fuel with
  | zero =>
    intro weight start_idx text res h
    exact absurd h (by simp [split_by_weight])
  | succ fuel ih =>
    intro weight start_idx text res h
    rw [split_by_weight] at h
    exact sbw_loop_tokens_le gw tok m _ weight text
      (fun s seg r hr => ih _ s seg r hr) _ _ _ _ _ _ _ _
      (Nat.zero_le m) (by intro c hc; cases hc) h

theorem best_split_scan_le (gw : Char → Nat) (tok : List Char → Nat) (m : Nat)
    (current_text next_text : List Char) :
    ∀ (j : Nat) (bi : Option Nat) (bw : Int),
      (∀ p, bi = some p → 2 ≤ p ∧ p ≤ current_text.length ∧
        validSplit tok m current_text next_text p) →
      ∀ p, best_split_scan gw tok m current_text next_text j bi bw = some p →
        2 ≤ p ∧ p ≤ current_text.length ∧
          validSplit tok m current_text next_text p := by
  intro j
  induction j with
  | zero =>
    intro bi bw hbi p hp
    simp only [best_split_scan] at hp
    exact hbi p hp
  | succ j ih =>
    intro bi bw hbi p hp
    simp only [best_split_scan] at hp
    split at hp
    · split at hp
      · split at hp
        · rename_i hlen hval
          refine ih _ _ ?_ p hp
          intro q hq
          rw [Option.some.injEq] at hq; subst hq
          exact ⟨by omega, hlen, hval⟩
        · exact ih _ _ hbi p hp
      · exact ih _ _ hbi p hp
    · exact ih _ _ hbi p hp

theorem opt_loop_tokens_le (gw : Char → Nat) (tok : List Char → Nat) (m : Nat) :
    ∀ (steps : Nat) (chunks : List Chunk),
      (∀ c ∈ chunks, c.token_count ≤ m) →
      ∀ c ∈ opt_loop gw tok m steps chunks, c.token_count ≤ m := by
  intro steps
  induction steps with
  | zero =>
    intro chunks hch
    simpa only [opt_loop] using hch
  | succ steps ih =>
    intro chunks hch
    rcases chunks with _ | ⟨current, _ | ⟨next, rest⟩⟩
    · simpa only [opt_loop] using hch
    · simpa only [opt_loop] using hch
    · simp only [opt_loop]
      split
      · rename_i hmerge
        intro c hc
        rcases List.mem_cons.mp hc with hc | hc
        · subst hc; exact hmerge
        · exact ih rest (fun c' hc' => hch c' (by simp [hc'])) c hc
      · split
        · rename_i hscan
          have hval := best_split_scan_le gw tok m current.text next.text
            (current.text.length - 1) none (-1) (by intro p hp; cases hp) _ hscan
          intro c hc
          rcases List.mem_cons.mp hc with hc | hc
          · subst hc; exact hval.2.2.1
          · refine ih _ ?_ c hc
            intro c' hc'
            rcases List.mem_cons.mp hc' with hc' | hc'
            · subst hc'; exact hval.2.2.2
            · exact hch c' (by simp [hc'])
        · intro c hc
          rcases List.mem_cons.mp hc with hc | hc
          · subst hc; exact hch _ (by simp)
          · refine ih _ ?_ c hc
            intro c' hc'
            exact hch c' (by simp [List.mem_cons.mp hc'])

theorem optimize_chunks_tokens_le (gw : Char → Nat) (tok : List Char → Nat)
    (m : Nat) (chunks : List Chunk)
    (hch : ∀ c ∈ chunks, c.token_count ≤ m) :
    ∀ c ∈ optimize_chunks gw tok m chunks, c.token_count ≤ m := by
  intro c hc
  simp only [optimize_chunks] at hc
  split at hc
  · exact hch c hc
  · have hopt := opt_loop_tokens_le gw tok m chunks.length chunks hch
    split at hc
    · split at hc
      · exact hopt c (List.mem_of_mem_dropLast hc)
      · exact hopt c hc
    · exact hopt c hc

/-- C1: for every text, every counting function, every positive integer
`max_tokens`, and both values of `optimize`, every chunk triple returned by
`split_text_into_chunks` has its `token_count` component at most
`max_tokens`. -/
theorem C1_token_count_within_budget (gw : Char → Nat) (tok : List Char → Nat)
    (max_tokens : Int) (optimize : Bool) (text : List Char) (res : List Chunk)
    (h : split_text_into_chunks gw tok max_tokens optimize text = .ok res) :
    ∀ c ∈ res, (c.token_count : Int) ≤ max_tokens := by
  rw [split_text_into_chunks] at h
  split at h
  · exact absurd h (by simp)
  · rename_i hpos
    have hm : ((max_tokens.toNat : Int)) = max_tokens := Int.toNat_of_nonneg (by omega)
    split at h
    · exact absurd h (by simp)
    · rename_i initial_chunks hinit
      have hinit_le := split_by_weight_tokens_le gw tok max_tokens.toNat
        _ _ _ _ _ hinit
      intro c hc
      have : c.token_count ≤ max_tokens.toNat := by
        split at h
        · rw [Except.ok.injEq] at h; subst h
          exact optimize_chunks_tokens_le gw tok max_tokens.toNat
            initial_chunks hinit_le c hc
        · rw [Except.ok.injEq] at h; subst h
          exact hinit_le c hc
      omega

/-! ### Configuration check, empty input, and recursion depth -/

/-- C8: when `max_tokens ≤ 0` (the embeddable part of `max_tokens` not being
a positive integer; non-integer arguments are unrepresentable in the typed
embedding), `split_text_into_chunks` reports the configuration error
immediately.  The statement is uniform in the counting function `tok` and the
classifier `gw`: no splitting work and no call to the counting dependency can
influence the result, and no partial chunk list is produced. -/
theorem C8_config_error (gw : Char → Nat) (tok : List Char → Nat)
    (max_tokens : Int) (optimize : Bool) (text : List Char)
    (h : max_tokens ≤ 0) :
    split_text_into_chunks gw tok max_tokens optimize text =
      .error .configError := by
  rw [split_text_into_chunks, if_pos h]

/-- C10: on the empty text, with any positive `max_tokens`, any counting
function, any classifier, and either value of `optimize`, the result is the
empty chunk list and no error.  Uniformity in `tok` shows the counting
dependency is never consulted. -/
theorem C10_empty_input (gw : Char → Nat) (tok : List Char → Nat)
    (max_tokens : Int) (optimize : Bool) (h : 0 < max_tokens) :
    split_text_into_chunks gw tok max_tokens optimize [] = .ok [] := by
  cases optimize <;> (rw [split_text_into_chunks, if_neg (by omega)]; rfl)

theorem sbw_loop_no_depth_exceeded (gw : Char → Nat) (tok : List Char → Nat)
    (m : Nat) (recur : Nat → List Char → Except SplitError (List Chunk))
    (w : Nat) (text : List Char)
    (hrec : 0 < w → ∀ s seg, recur s seg ≠ .error .depthExceeded) :
    ∀ (steps i current_pos current_chunk_start : Nat) (current_chunk : List Char)
      (current_chunk_tokens : Nat) (chunks : List Chunk),
      sbw_loop gw tok m recur w text steps i current_pos current_chunk_start
        current_chunk current_chunk_tokens chunks ≠ .error .depthExceeded := by
  intro steps
  induction steps with
  | zero =>
    intro i current_pos current_chunk_start current_chunk current_chunk_tokens
      chunks h
    simp only [sbw_loop] at h
    split at h
    · split at h
      · simp at h
      · split at h
        · rename_i hcond
          split at h
          · rename_i e herr
            rw [Except.error.injEq] at h; subst h
            exact hrec hcond.2 _ _ herr
          · simp at h
        · split at h
          · simp at h
          · simp at h
    · simp at h
  | succ steps ih =>
    intro i current_pos current_chunk_start current_chunk current_chunk_tokens
      chunks h
    simp only [sbw_loop] at h
    split at h
    · split at h
      · exact ih _ _ _ _ _ _ h
      · split at h
        · rename_i hcond
          split at h
          · rename_i e herr
            rw [Except.error.injEq] at h; subst h
            exact hrec hcond.2 _ _ herr
          · exact ih _ _ _ _ _ _ h
        · split at h
          · exact ih _ _ _ _ _ _ h
          · simp at h
    · exact ih _ _ _ _ _ _ h

theorem split_by_weight_no_depth_exceeded (gw : Char → Nat)
    (tok : List Char → Nat) (m : Nat) :
    ∀ (w start_idx : Nat) (text : List Char),
      split_by_weight gw tok m (w + 1) w start_idx text ≠
        .error .depthExceeded := by
  intro w
  induction w with
  | zero =>
    intro start_idx text
    rw [split_by_weight]
    exact sbw_loop_no_depth_exceeded gw tok m _ 0 text
      (fun h0 => absurd h0 (by omega)) _ _ _ _ _ _ _
  | succ w ih =>
    intro start_idx text
    rw [split_by_weight]
    refine sbw_loop_no_depth_exceeded gw tok m _ (w + 1) text ?_ _ _ _ _ _ _ _
    intro _ s seg
    simpa using ih s seg

/-- C9: the weight-descending recursion of `split_by_weight` terminates with
fuel one more than the starting weight tier: each recursive call decreases
the tier by one and recursion is guarded by `NO_WEIGHT < weight`, so the
fuel-exhaustion marker is never produced.  In particular the top-level call
(tier `PARAGRAPH_SEPARATOR_WEIGHT = 4`, fuel `5`, recursion depth at most
`5`) always yields an ordinary result — a chunk list or one of the two
declared errors — for every text, counting function, classifier, and
budget. -/
theorem C9_bounded_recursion_total (gw : Char → Nat) (tok : List Char → Nat)
    (m : Nat) (w start_idx : Nat) (text : List Char) :
    is_depth_exceeded (split_by_weight gw tok m (w + 1) w start_idx text) =
      false := by
  have hne := split_by_weight_no_depth_exceeded gw tok m w start_idx text
  rcases h : split_by_weight gw tok m (w + 1) w start_idx text with e | res
  · cases e
    · rfl
    · rfl
    · exact absurd h hne
  · rfl

/-! ### Exactness of recorded token counts under an additive counting
function -/

theorem AdditiveCount.nil_eq_zero {tok : List Char → Nat}
    (hadd : AdditiveCount tok) : tok [] = 0 := by
  have := hadd [] []
  simp only [List.append_nil] at this
  omega

theorem sbw_loop_counts_exact (gw : Char → Nat) (tok : List Char → Nat)
    (m : Nat) (recur : Nat → List Char → Except SplitError (List Chunk))
    (w : Nat) (text : List Char) (hadd : AdditiveCount tok)
    (hrec : ∀ s seg r, recur s seg = .ok r →
      ∀ c ∈ r, c.token_count = get_token_count tok m c.text) :
    ∀ (steps i current_pos current_chunk_start : Nat) (current_chunk : List Char)
      (current_chunk_tokens : Nat) (chunks res : List Chunk),
      current_chunk_tokens = tok current_chunk → current_chunk_tokens ≤ m →
      (∀ c ∈ chunks, c.token_count = get_token_count tok m c.text) →
      sbw_loop gw tok m recur w text steps i current_pos current_chunk_start
        current_chunk current_chunk_tokens chunks = .ok res →
      ∀ c ∈ res, c.token_count = get_token_count tok m c.text := by
  intro steps
  induction steps with
  | zero =>
    intro i current_pos current_chunk_start current_chunk current_chunk_tokens
      chunks res hexact hcc hacc h
    simp only [sbw_loop] at h
    by_cases hce : current_chunk = [] <;>
      simp only [hce, if_true, if_false, ite_true, ite_false] at h <;> split at h
    case pos.isTrue =>
      split at h
      · rename_i hfit
        rw [Except.ok.injEq] at h; subst h
        intro c hc
        rcases List.mem_append.mp hc with hc | hc
        · exact hacc c hc
        · rw [List.mem_singleton] at hc; subst hc
          subst hce
          simp only [List.nil_append]
          have h0 := hadd.nil_eq_zero
          simp only [get_token_count] at hfit ⊢
          omega
      · split at h
        · split at h
          · exact absurd h (by simp)
          · rename_i sub_chunks hsub
            rw [Except.ok.injEq] at h; subst h
            intro c hc
            rcases List.mem_append.mp hc with hc | hc
            · exact hacc c hc
            · exact hrec _ _ _ hsub c hc
        · split at h
          · rw [Except.ok.injEq] at h; subst h
            intro c hc
            rcases List.mem_append.mp hc with hc | hc
            · exact hacc c hc
            · rw [List.mem_singleton] at hc; subst hc; rfl
          · exact absurd h (by simp)
    case pos.isFalse =>
      rw [Except.ok.injEq] at h; subst h
      exact hacc
    case neg.isTrue =>
      split at h
      · rename_i hfit
        rw [Except.ok.injEq] at h; subst h
        intro c hc
        rcases List.mem_append.mp hc with hc | hc
        · exact hacc c hc
        · rw [List.mem_singleton] at hc; subst hc
          simp only [get_token_count, hadd current_chunk] at hfit ⊢
          omega
      · split at h
        · split at h
          · exact absurd h (by simp)
          · rename_i sub_chunks hsub
            rw [Except.ok.injEq] at h; subst h
            intro c hc
            simp only [List.mem_append, List.mem_singleton] at hc
            rcases hc with ((hc | hc) | hc) | hc
            · exact hacc c hc
            · subst hc
              simp only [get_token_count] at hcc ⊢
              omega
            · exact hrec _ _ _ hsub c hc
            · subst hc
              simp only [get_token_count] at hcc ⊢
              omega
        · split at h
          · rw [Except.ok.injEq] at h; subst h
            intro c hc
            simp only [List.mem_append, List.mem_cons, List.mem_singleton,
              List.not_mem_nil, or_false] at hc
            rcases hc with (hc | hc) | hc | hc
            · exact hacc c hc
            · subst hc
              simp only [get_token_count] at hcc ⊢
              omega
            · subst hc; rfl
            · subst hc
              simp only [get_token_count] at hcc ⊢
              omega
          · exact absurd h (by simp)
    case neg.isFalse =>
      rw [Except.ok.injEq] at h; subst h
      intro c hc
      rcases List.mem_append.mp hc with hc | hc
      · exact hacc c hc
      · rw [List.mem_singleton] at hc; subst hc
        simp only [get_token_count] at hcc ⊢
        omega
  | succ steps ih =>
    intro i current_pos current_chunk_start current_chunk current_chunk_tokens
      chunks res hexact hcc hacc h
    simp only [sbw_loop] at h
    by_cases hce : current_chunk = [] <;>
      simp only [hce, if_true, if_false, ite_true, ite_false] at h <;> split at h
    case pos.isTrue =>
      split at h
      · rename_i hfit
        subst hce
        refine ih _ _ _ _ _ _ _ ?_ hfit hacc h
        have h0 := hadd.nil_eq_zero
        simp only [List.nil_append]
        simp only [get_token_count] at hfit ⊢
        omega
      · split at h
        · split at h
          · exact absurd h (by simp)
          · rename_i sub_chunks hsub
            refine ih _ _ _ _ _ _ _ ?_ ?_ ?_ h
            · subst hce; exact hexact
            · exact hcc
            · intro c hc
              rcases List.mem_append.mp hc with hc | hc
              · exact hacc c hc
              · exact hrec _ _ _ hsub c hc
        · split at h
          · rename_i hnofit hfit2
            refine ih _ _ _ _ _ _ _ ?_ hfit2 hacc h
            simp only [get_token_count] at hfit2 ⊢
            omega
          · exact absurd h (by simp)
    case pos.isFalse =>
      subst hce
      exact ih _ _ _ _ _ _ _ hexact hcc hacc h
    case neg.isTrue =>
      split at h
      · rename_i hfit
        refine ih _ _ _ _ _ _ _ ?_ hfit hacc h
        rw [hadd current_chunk, hexact]
        have : get_token_count tok m (pySlice text current_pos (i + 1)) =
            tok (pySlice text current_pos (i + 1)) := by
          simp only [get_token_count] at hfit ⊢
          omega
        omega
      · split at h
        · split at h
          · exact absurd h (by simp)
          · rename_i sub_chunks hsub
            refine ih _ _ _ _ _ _ _ hadd.nil_eq_zero.symm (Nat.zero_le m) ?_ h
            intro c hc
            simp only [List.mem_append, List.mem_singleton] at hc
            rcases hc with (hc | hc) | hc
            · exact hacc c hc
            · subst hc
              simp only [get_token_count] at hcc ⊢
              omega
            · exact hrec _ _ _ hsub c hc
        · split at h
          · rename_i hnofit hfit2
            refine ih _ _ _ _ _ _ _ ?_ hfit2 ?_ h
            · simp only [get_token_count] at hfit2 ⊢
              omega
            · intro c hc
              simp only [List.mem_append, List.mem_singleton] at hc
              rcases hc with hc | hc
              · exact hacc c hc
              · subst hc
                simp only [get_token_count] at hcc ⊢
                omega
          · exact absurd h (by simp)
    case neg.isFalse =>
      exact ih _ _ _ _ _ _ _ hexact hcc hacc h

theorem split_by_weight_counts_exact (gw : Char → Nat) (tok : List Char → Nat)
    (m : Nat) (hadd : AdditiveCount tok) :
    ∀ (fuel weight start_idx : Nat) (text : List Char) (res : List Chunk),
      split_by_weight gw tok m fuel weight start_idx text = .ok res →
      ∀ c ∈ res, c.token_count = get_token_count tok m c.text := by
  intro fuel
  induction fuel with
  | zero =>
    intro weight start_idx text res h
    exact absurd h (by simp [split_by_weight])
  | succ fuel ih =>
    intro weight start_idx text res h
    rw [split_by_weight] at h
    exact sbw_loop_counts_exact gw tok m _ weight text hadd
      (fun s seg r hr => ih _ s seg r hr) _ _ _ _ _ _ _ _
      hadd.nil_eq_zero.symm (Nat.zero_le m) (by intro c hc; cases hc) h

theorem opt_loop_counts_exact (gw : Char → Nat) (tok : List Char → Nat)
    (m : Nat) :
    ∀ (steps : Nat) (chunks : List Chunk),
      (∀ c ∈ chunks, c.token_count = get_token_count tok m c.text) →
      ∀ c ∈ opt_loop gw tok m steps chunks,
        c.token_count = get_token_count tok m c.text := by
  intro steps
  induction steps with
  | zero =>
    intro chunks hch
    simpa only [opt_loop] using hch
  | succ steps ih =>
    intro chunks hch
    rcases chunks with _ | ⟨current, _ | ⟨next, rest⟩⟩
    · simpa only [opt_loop] using hch
    · simpa only [opt_loop] using hch
    · simp only [opt_loop]
      split
      · intro c hc
        rcases List.mem_cons.mp hc with hc | hc
        · subst hc; rfl
        · exact ih rest (fun c' hc' => hch c' (by simp [hc'])) c hc
      · split
        · intro c hc
          rcases List.mem_cons.mp hc with hc | hc
          · subst hc; rfl
          · refine ih _ ?_ c hc
            intro c' hc'
            rcases List.mem_cons.mp hc' with hc' | hc'
            · subst hc'; rfl
            · exact hch c' (by simp [hc'])
        · intro c hc
          rcases List.mem_cons.mp hc with hc | hc
          · subst hc; exact hch _ (by simp)
          · refine ih _ ?_ c hc
            intro c' hc'
            exact hch c' (by simp [List.mem_cons.mp hc'])

theorem optimize_chunks_counts_exact (gw : Char → Nat) (tok : List Char → Nat)
    (m : Nat) (chunks : List Chunk)
    (hch : ∀ c ∈ chunks, c.token_count = get_token_count tok m c.text) :
    ∀ c ∈ optimize_chunks gw tok m chunks,
      c.token_count = get_token_count tok m c.text := by
  intro c hc
  simp only [optimize_chunks] at hc
  split at hc
  · exact hch c hc
  · have hopt := opt_loop_counts_exact gw tok m chunks.length chunks hch
    split at hc
    · split at hc
      · exact hopt c (List.mem_of_mem_dropLast hc)
      · exact hopt c hc
    · exact hopt c hc

/-- C2 counterexample: the splitter records, for a chunk assembled from
several segments, the *sum* of the per-segment capped counts, not the count
of the chunk's own text.  With the counting function `length + 1` (one
special token per call), budget `6`, and text `a.b.c.d.`, the raw splitter
output contains the chunk `(0, "a.b.", 6)`, while the counting dependency's
result on `"a.b."` is `5`. -/
theorem C2_counterexample_token_count_not_exact :
    split_text_into_chunks get_weight_ascii tokLenSucc 6 false
        "a.b.c.d.".toList =
      .ok [⟨0, "a.b.".toList, 6⟩, ⟨4, "c.d.".toList, 6⟩] ∧
    get_token_count tokLenSucc (Int.toNat 6) "a.b.".toList = 5 ∧ (6 : Nat) ≠ 5 := by
  refine ⟨by rfl, by rfl, by omega⟩

/-- C2 (amended): for every text, every positive `max_tokens`, and both
values of `optimize`, every returned chunk's `token_count` equals the
counting dependency's result (`get_token_count`, the capped count) on that
chunk's exact text, **provided** the counting function is additive over
concatenation.  (For non-additive counting functions the splitter's recorded
count is the sum of the capped counts of the segments accumulated into the
chunk, which can differ from the count of the joined text; see the
counterexample.) -/
theorem C2_token_count_exact_of_additive (gw : Char → Nat)
    (tok : List Char → Nat) (max_tokens : Int) (optimize : Bool)
    (text : List Char) (res : List Chunk) (hadd : AdditiveCount tok)
    (h : split_text_into_chunks gw tok max_tokens optimize text = .ok res) :
    ∀ c ∈ res, c.token_count = get_token_count tok max_tokens.toNat c.text := by
  rw [split_text_into_chunks] at h
  split at h
  · exact absurd h (by simp)
  · split at h
    · exact absurd h (by simp)
    · rename_i initial_chunks hinit
      have hinit_exact := split_by_weight_counts_exact gw tok max_tokens.toNat
        hadd _ _ _ _ _ hinit
      split at h
      · rw [Except.ok.injEq] at h; subst h
        exact optimize_chunks_counts_exact gw tok max_tokens.toNat
          initial_chunks hinit_exact
      · rw [Except.ok.injEq] at h; subst h
        exact hinit_exact

/-! ### Whole text within budget (C5) -/

theorem take_append_pySlice (s : List Char) (a b : Nat) (h : a ≤ b) :
    s.take a ++ pySlice s a b = s.take b := by
  have h1 : (s.take b).take a = s.take a := by
    rw [List.take_take, Nat.min_eq_left h]
  rw [pySlice, ← h1, List.take_append_drop]

theorem AdditiveCount.take_le {tok : List Char → Nat}
    (hadd : AdditiveCount tok) (s : List Char) (k : Nat) :
    tok (s.take k) ≤ tok s := by
  conv_rhs => rw [← List.take_append_drop k s]
  rw [hadd]
  omega

theorem sbw_loop_whole_fits (gw : Char → Nat) (tok : List Char → Nat)
    (m : Nat) (recur : Nat → List Char → Except SplitError (List Chunk))
    (w : Nat) (text : List Char) (start_idx : Nat) (hadd : AdditiveCount tok)
    (hm : tok text ≤ m) (hne : text ≠ []) :
    ∀ (steps i current_pos : Nat),
      steps + i = text.length → current_pos ≤ i →
      sbw_loop gw tok m recur w text steps i current_pos start_idx
        (text.take current_pos) (tok (text.take current_pos)) [] =
      .ok [⟨start_idx, text, tok text⟩] := by
  intro steps
  induction steps with
  | zero =>
    intro i current_pos hlen hpos
    simp only [sbw_loop]
    by_cases hlt : current_pos < text.length
    · rw [if_pos hlt]
      have hsum : tok (text.take current_pos) +
          tok (pySlice text current_pos text.length) = tok text := by
        rw [← hadd, take_append_pySlice text current_pos text.length (by omega),
          List.take_length]
      have hfit : tok (text.take current_pos) +
          get_token_count tok m (pySlice text current_pos text.length) ≤ m := by
        simp only [get_token_count]
        omega
      rw [if_pos hfit]
      have e1 : text.take current_pos ++ pySlice text current_pos text.length =
          text := by
        rw [take_append_pySlice text current_pos text.length (by omega),
          List.take_length]
      have e2 : tok (text.take current_pos) +
          get_token_count tok m (pySlice text current_pos text.length) =
          tok text := by
        simp only [get_token_count]
        omega
      rw [e1, e2, List.nil_append]
    · rw [if_neg hlt]
      have hcp : current_pos = text.length := by omega
      subst hcp
      rw [List.take_length]
      rw [if_neg hne, List.nil_append]
  | succ steps ih =>
    intro i current_pos hlen hpos
    simp only [sbw_loop]
    by_cases hw : w ≤ gw (text.getD i ' ')
    · rw [if_pos hw]
      have hsum : tok (text.take current_pos) +
          tok (pySlice text current_pos (i + 1)) = tok (text.take (i + 1)) := by
        rw [← hadd, take_append_pySlice text current_pos (i + 1) (by omega)]
      have htk : tok (text.take (i + 1)) ≤ m :=
        le_trans (hadd.take_le text (i + 1)) hm
      have hfit : tok (text.take current_pos) +
          get_token_count tok m (pySlice text current_pos (i + 1)) ≤ m := by
        simp only [get_token_count]
        omega
      rw [if_pos hfit]
      have e1 : text.take current_pos ++ pySlice text current_pos (i + 1) =
          text.take (i + 1) :=
        take_append_pySlice text current_pos (i + 1) (by omega)
      have e2 : tok (text.take current_pos) +
          get_token_count tok m (pySlice text current_pos (i + 1)) =
          tok (text.take (i + 1)) := by
        simp only [get_token_count]
        omega
      rw [e1, e2]
      exact ih (i + 1) (i + 1) (by omega) (by omega)
    · rw [if_neg hw]
      exact ih (i + 1) current_pos (by omega) (by omega)

theorem split_by_weight_whole_fits (gw : Char → Nat) (tok : List Char → Nat)
    (m : Nat) (fuel weight start_idx : Nat) (text : List Char)
    (hadd : AdditiveCount tok) (hm : tok text ≤ m) (hne : text ≠ []) :
    split_by_weight gw tok m (fuel + 1) weight start_idx text =
      .ok [⟨start_idx, text, tok text⟩] := by
  rw [split_by_weight]
  have h := sbw_loop_whole_fits gw tok m
    (fun s seg => split_by_weight gw tok m fuel (weight - 1) s seg)
    weight text start_idx hadd hm hne text.length 0 0 (by omega) (by omega)
  simpa [hadd.nil_eq_zero] using h

/-- C5 counterexample: the claim fails as stated.  (a) With the constant
counting function `tokOne` (count `1` for every span, so the whole text's
count `1 ≤ 2` fits the budget), classifier fragment `get_weight_ascii`,
budget `2`, and the five-paragraph text `a\nb\nc\nd\ne\n`, the result has two
chunks, not one: the splitter accumulates per-segment counts (`1` per
paragraph unit) and splits after two units, and the optimizer's single pass
merges only one adjacent pair.  (b) On the empty text the result is the empty
chunk list, not a single chunk. -/
theorem C5_counterexample_whole_fits_not_single :
    (get_token_count tokOne (Int.toNat 2) "a\nb\nc\nd\ne\n".toList ≤
        Int.toNat 2 ∧
      split_text_into_chunks get_weight_ascii tokOne 2 true
          "a\nb\nc\nd\ne\n".toList =
        .ok [⟨0, "a\nb\nc\nd\n".toList, 1⟩, ⟨8, "e\n".toList, 1⟩]) ∧
    (get_token_count tokOne (Int.toNat 2) [] ≤ Int.toNat 2 ∧
      split_text_into_chunks get_weight_ascii tokOne 2 true [] = .ok []) := by
  exact ⟨⟨by decide, by rfl⟩, ⟨by decide, by rfl⟩⟩

/-- C5 (amended): for every **nonempty** text, every
**concatenation-additive** counting function, every positive `max_tokens`,
and both values of `optimize`, if the counting dependency's result on the
whole text is within the budget then the result is exactly one chunk with
`start_offset 0` whose text is the entire input (its recorded count being the
whole text's count).  Without additivity, or on the empty text, the claim
fails; see the counterexample. -/
theorem C5_single_chunk_of_additive (gw : Char → Nat) (tok : List Char → Nat)
    (max_tokens : Int) (optimize : Bool) (text : List Char)
    (hadd : AdditiveCount tok) (hne : text ≠ []) (hpos : 0 < max_tokens)
    (hm : get_token_count tok max_tokens.toNat text ≤ max_tokens.toNat) :
    split_text_into_chunks gw tok max_tokens optimize text =
      .ok [⟨0, text, tok text⟩] := by
  rw [split_text_into_chunks, if_neg (by omega)]
  have hm' : tok text ≤ max_tokens.toNat := by
    simp only [get_token_count] at hm
    omega
  rw [split_by_weight_whole_fits gw tok max_tokens.toNat
    PARAGRAPH_SEPARATOR_WEIGHT PARAGRAPH_SEPARATOR_WEIGHT 0 text hadd hm' hne]
  cases optimize <;> simp [optimize_chunks]

/-! ### Unsplittable single character (C6) -/

theorem split_by_weight_single_char_err (gw : Char → Nat)
    (tok : List Char → Nat) (m : Nat) (c : Char)
    (hbig : m < get_token_count tok m [c]) :
    ∀ (w : Nat), ∀ (start_idx : Nat),
      split_by_weight gw tok m (w + 1) w start_idx [c] =
        .error .unsplittable := by
  intro w
  induction w with
  | zero =>
    intro start_idx
    rw [split_by_weight]
    change sbw_loop _ _ _ _ 0 [c] (Nat.succ 0) 0 0 start_idx [] 0 [] = _
    simp only [sbw_loop]
    rw [if_pos (Nat.zero_le _)]
    have hps : pySlice [c] 0 (0 + 1) = [c] := rfl
    simp only [hps]
    rw [if_neg (by omega), if_neg (by omega), if_neg (by omega)]
  | succ w ih =>
    intro start_idx
    rw [split_by_weight]
    change sbw_loop _ _ _ _ (w + 1) [c] (Nat.succ 0) 0 0 start_idx [] 0 [] = _
    simp only [sbw_loop]
    have hps : pySlice [c] 0 (0 + 1) = [c] := rfl
    by_cases hw : w + 1 ≤ gw ([c].getD 0 ' ')
    · rw [if_pos hw]
      simp only [hps]
      rw [if_neg (by omega)]
      rw [if_pos ⟨by omega, by omega⟩]
      have hr := ih start_idx
      simp [hr]
    · rw [if_neg hw]
      rw [if_pos (show (0 : Nat) < [c].length by simp)]
      have hps2 : pySlice [c] 0 [c].length = [c] := rfl
      simp only [hps2]
      rw [if_neg (by omega)]
      rw [if_pos ⟨by omega, by omega⟩]
      have hr := ih start_idx
      simp [hr]

/-- C6 counterexample to the "input contains a heavy character"
generalisation: with the counting function `tokSpike` (count `100` on the
single character `x`, count `1` on every other span), budget `2`, the text
`ax b` *contains* a character whose own capped count `3` exceeds the budget,
yet no error is raised: the whole text counts `1`, fits, and is returned as
one chunk.  The character is never evaluated in isolation because every
enclosing segment is cheap for this (non-monotone) counting function. -/
theorem C6_counterexample_contained_heavy_char :
    Int.toNat 2 < get_token_count tokSpike (Int.toNat 2) ['x'] ∧
    'x' ∈ "ax b".toList ∧
    split_text_into_chunks get_weight_ascii tokSpike 2 true "ax b".toList =
      .ok [⟨0, "ax b".toList, 1⟩] := by
  exact ⟨by decide, by decide, by rfl⟩

/-- C6 (amended): for every text **consisting of a single character** whose
own (capped) token count exceeds `max_tokens`, every counting function, every
classifier, every positive `max_tokens`, and both values of `optimize`,
`split_text_into_chunks` fails with the unsplittable-segment error (the
source's `Cannot split ... within token limit` `ValueError`), returning no
partial chunk sequence.  The original claim's generalisation to any input
*containing* such a character fails for non-monotone counting functions; see
the counterexample. -/
theorem C6_single_char_unsplittable (gw : Char → Nat) (tok : List Char → Nat)
    (max_tokens : Int) (optimize : Bool) (c : Char) (hpos : 0 < max_tokens)
    (hbig : max_tokens <
      (get_token_count tok max_tokens.toNat [c] : Int)) :
    split_text_into_chunks gw tok max_tokens optimize [c] =
      .error .unsplittable := by
  rw [split_text_into_chunks, if_neg (by omega)]
  rw [split_by_weight_single_char_err gw tok max_tokens.toNat c (by omega)
    PARAGRAPH_SEPARATOR_WEIGHT 0]

/-! ### Characterisation of the redistribution scan (C7) -/

theorem best_split_scan_characterize (gw : Char → Nat) (tok : List Char → Nat)
    (m : Nat) (current_text next_text : List Char) :
    ∀ (j : Nat) (bi : Option Nat) (bw : Int),
      (∀ p, bi = some p →
        j + 2 ≤ p ∧ p ≤ current_text.length ∧
        validSplit tok m current_text next_text p ∧
        bw = (posWeight gw current_text p : Int) ∧
        (∀ q, j + 2 ≤ q → q ≤ current_text.length →
          validSplit tok m current_text next_text q →
          (p < q → posWeight gw current_text q < posWeight gw current_text p) ∧
          (q < p → posWeight gw current_text q ≤ posWeight gw current_text p))) →
      (bi = none → bw = -1 ∧ ∀ q, j + 2 ≤ q → q ≤ current_text.length →
        ¬validSplit tok m current_text next_text q) →
      (∀ p, best_split_scan gw tok m current_text next_text j bi bw = some p →
        2 ≤ p ∧ p ≤ current_text.length ∧
        validSplit tok m current_text next_text p ∧
        (∀ q, 2 ≤ q → q ≤ current_text.length →
          validSplit tok m current_text next_text q →
          (p < q → posWeight gw current_text q < posWeight gw current_text p) ∧
          (q < p → posWeight gw current_text q ≤ posWeight gw current_text p))) ∧
      (best_split_scan gw tok m current_text next_text j bi bw = none →
        ∀ q, 2 ≤ q → q ≤ current_text.length →
          ¬validSplit tok m current_text next_text q) := by
  intro j
  induction j with
  | zero =>
    intro bi bw hsome hnone
    constructor
    · intro p hp
      simp only [best_split_scan] at hp
      obtain ⟨h1, h2, h3, _, h5⟩ := hsome p hp
      exact ⟨by omega, h2, h3, fun q hq1 hq2 hq3 => h5 q hq1 hq2 hq3⟩
    · intro hp
      simp only [best_split_scan] at hp
      exact (hnone hp).2
  | succ j ih =>
    intro bi bw hsome hnone
    have hpw : posWeight gw current_text (j + 1 + 1) =
        gw (current_text.getD (j + 1) ' ') := by
      simp only [posWeight, Nat.add_sub_cancel]
    by_cases hgt : bw < (gw (current_text.getD (j + 1) ' ') : Int)
    · by_cases hlen : j + 1 + 1 ≤ current_text.length
      · by_cases hval : get_token_count tok m (current_text.take (j + 1 + 1)) ≤ m ∧
            get_token_count tok m
              (current_text.drop (j + 1 + 1) ++ next_text) ≤ m
        · -- the position j + 2 is adopted
          have hstep : best_split_scan gw tok m current_text next_text
              (j + 1) bi bw =
              best_split_scan gw tok m current_text next_text j
                (some (j + 1 + 1))
                (gw (current_text.getD (j + 1) ' ') : Int) := by
            simp only [best_split_scan]
            rw [if_pos hgt, if_pos hlen, if_pos hval]
          rw [hstep]
          refine ih (some (j + 1 + 1)) _ ?_ (by intro hq; cases hq)
          intro p hp
          rw [Option.some.injEq] at hp; subst hp
          refine ⟨by omega, hlen, hval, hpw.symm ▸ rfl, ?_⟩
          intro q hq1 hq2 hq3
          rcases Nat.lt_or_ge (j + 1 + 1) q with hgtq | hgeq
          · -- q strictly beyond the adopted position: scanned earlier
            constructor
            · intro _
              rcases hbi : bi with _ | pOld
              · exact absurd hq3 ((hnone hbi).2 q (by omega) hq2)
              · obtain ⟨ho1, ho2, ho3, ho4, ho5⟩ := hsome pOld hbi
                have hlt : posWeight gw current_text pOld <
                    posWeight gw current_text (j + 1 + 1) := by
                  rw [hpw]
                  rw [ho4] at hgt
                  exact_mod_cast hgt
                rcases Nat.lt_trichotomy pOld q with hc | hc | hc
                · have := (ho5 q (by omega) hq2 hq3).1 hc
                  omega
                · subst hc; omega
                · have := (ho5 q (by omega) hq2 hq3).2 hc
                  omega
            · intro hcon; omega
          · -- q at or below the adopted position but ≥ j + 2: q = j + 2
            have hq : q = j + 1 + 1 := by omega
            subst hq
            constructor
            · intro hcon; omega
            · intro hcon; omega
        · -- weight check passed but the proposal is invalid: state unchanged
          have hstep : best_split_scan gw tok m current_text next_text
              (j + 1) bi bw =
              best_split_scan gw tok m current_text next_text j bi bw := by
            simp only [best_split_scan]
            rw [if_pos hgt, if_pos hlen, if_neg hval]
          rw [hstep]
          refine ih bi bw ?_ ?_
          · intro p hp
            obtain ⟨ho1, ho2, ho3, ho4, ho5⟩ := hsome p hp
            refine ⟨by omega, ho2, ho3, ho4, ?_⟩
            intro q hq1 hq2 hq3
            rcases Nat.lt_or_ge q (j + 1 + 1) with hc | hc
            · omega
            · rcases Nat.eq_or_lt_of_le hc with hc' | hc'
              · exact absurd hq3 (hc' ▸ hval)
              · exact ho5 q (by omega) hq2 hq3
          · intro hbi
            obtain ⟨hbw, hnv⟩ := hnone hbi
            refine ⟨hbw, ?_⟩
            intro q hq1 hq2 hq3
            rcases Nat.lt_or_ge q (j + 1 + 1) with hc | hc
            · omega
            · rcases Nat.eq_or_lt_of_le hc with hc' | hc'
              · exact absurd hq3 (hc' ▸ hval)
              · exact hnv q (by omega) hq2 hq3
      · -- proposed split position beyond the text: state unchanged
        have hstep : best_split_scan gw tok m current_text next_text
            (j + 1) bi bw =
            best_split_scan gw tok m current_text next_text j bi bw := by
          simp only [best_split_scan]
          rw [if_pos hgt, if_neg hlen]
        rw [hstep]
        refine ih bi bw ?_ ?_
        · intro p hp
          obtain ⟨ho1, ho2, ho3, ho4, ho5⟩ := hsome p hp
          refine ⟨by omega, ho2, ho3, ho4, ?_⟩
          intro q hq1 hq2 hq3
          have : j + 1 + 2 ≤ q := by omega
          exact ho5 q this hq2 hq3
        · intro hbi
          obtain ⟨hbw, hnv⟩ := hnone hbi
          refine ⟨hbw, ?_⟩
          intro q hq1 hq2 hq3
          have : j + 1 + 2 ≤ q := by omega
          exact hnv q this hq2 hq3
    · -- the character's weight does not beat the last adopted weight
      have hstep : best_split_scan gw tok m current_text next_text
          (j + 1) bi bw =
          best_split_scan gw tok m current_text next_text j bi bw := by
        simp only [best_split_scan]
        rw [if_neg hgt]
      rw [hstep]
      refine ih bi bw ?_ ?_
      · intro p hp
        obtain ⟨ho1, ho2, ho3, ho4, ho5⟩ := hsome p hp
        refine ⟨by omega, ho2, ho3, ho4, ?_⟩
        intro q hq1 hq2 hq3
        rcases Nat.lt_or_ge q (j + 1 + 1) with hc | hc
        · omega
        · rcases Nat.eq_or_lt_of_le hc with hc' | hc'
          · subst hc'
            constructor
            · intro hcon; omega
            · intro _
              rw [hpw]
              rw [ho4] at hgt
              have : (gw (current_text.getD (j + 1) ' ') : Int) ≤
                  (posWeight gw current_text p : Int) := by omega
              exact_mod_cast this
          · exact ho5 q (by omega) hq2 hq3
      · intro hbi
        obtain ⟨hbw, _⟩ := hnone hbi
        subst hbw
        exfalso
        have : (0 : Int) ≤ (gw (current_text.getD (j + 1) ' ') : Int) :=
          Int.ofNat_nonneg _
        omega

/-- C7: the redistribution split adopted by the optimizer's scan
(`best_split_scan`, called by `opt_loop` exactly as below) scans the current
chunk's text from its last character toward its first, adopting a position
(splitting immediately after that character) only when that character's
weight strictly exceeds the weight of the last adopted candidate (started
below the lowest weight, at `-1`) and both the resulting prefix and the
resulting suffix-plus-next spans fit the budget.  Consequently a returned
position `p` is a valid split, and the rightmost valid split of a given
weight wins — every valid position right of `p` has strictly smaller weight,
and every valid position left of `p` has weight at most `p`'s — while `none`
is returned exactly when no valid position exists. -/
theorem C7_redistribution_tie_break (gw : Char → Nat) (tok : List Char → Nat)
    (m : Nat) (current_text next_text : List Char) :
    (∀ p, best_split_scan gw tok m current_text next_text
        (current_text.length - 1) none (-1) = some p →
      2 ≤ p ∧ p ≤ current_text.length ∧
      validSplit tok m current_text next_text p ∧
      (∀ q, 2 ≤ q → q ≤ current_text.length →
        validSplit tok m current_text next_text q →
        (p < q → posWeight gw current_text q < posWeight gw current_text p) ∧
        (q < p → posWeight gw current_text q ≤ posWeight gw current_text p))) ∧
    (best_split_scan gw tok m current_text next_text
        (current_text.length - 1) none (-1) = none →
      ∀ q, 2 ≤ q → q ≤ current_text.length →
        ¬validSplit tok m current_text next_text q) := by
  refine best_split_scan_characterize gw tok m current_text next_text
    (current_text.length - 1) none (-1) ?_ ?_
  · intro p hp; cases hp
  · intro _
    refine ⟨rfl, ?_⟩
    intro q hq1 hq2 hval
    omega

/-! ### The duplicated-final-chunk code bug (C3, C4) -/

/-- C3 (code bug): offsets are *not* strictly increasing/contiguous.  On input
`ab cdef` with counting function `length`, budget `3`, classifier fragment
`get_weight_ascii`, and `optimize = true`, the post-loop finalisation of
`split_by_weight` (source lines 206-211) appends the pending chunk without
clearing `current_chunk`, so the final append (lines 227-229) emits the
pending chunk `ab ` a second time at offset `3` after the chunk at offset
`6`: offsets run `0, 3, 6, 3`. -/
theorem C3_bug_offsets_not_monotone :
    split_text_into_chunks get_weight_ascii tokLen 3 true "ab cdef".toList =
      .ok [⟨0, "ab ".toList, 3⟩, ⟨3, "cde".toList, 3⟩, ⟨6, "f".toList, 1⟩,
        ⟨3, "ab ".toList, 3⟩] ∧
    ¬ ((⟨6, "f".toList, 1⟩ : Chunk).start_idx <
        (⟨3, "ab ".toList, 3⟩ : Chunk).start_idx) ∧
    (⟨6, "f".toList, 1⟩ : Chunk).start_idx +
        (⟨6, "f".toList, 1⟩ : Chunk).text.length ≠
      (⟨3, "ab ".toList, 3⟩ : Chunk).start_idx := by
  exact ⟨by rfl, by decide, by decide⟩

/-- C4 (code bug): with `optimize = false`, concatenating the returned chunk
texts does *not* reconstruct the input.  Same failing input as for C3: the
pending chunk `ab ` is emitted twice (source lines 206-211 finalise the
pending chunk without clearing `current_chunk`, lines 227-229 then append it
again), so the concatenation is `ab cdefab `, not `ab cdef`. -/
theorem C4_bug_not_lossless :
    split_text_into_chunks get_weight_ascii tokLen 3 false "ab cdef".toList =
      .ok [⟨0, "ab ".toList, 3⟩, ⟨3, "cde".toList, 3⟩, ⟨6, "f".toList, 1⟩,
        ⟨3, "ab ".toList, 3⟩] ∧
    concatTexts [⟨0, "ab ".toList, 3⟩, ⟨3, "cde".toList, 3⟩,
        ⟨6, "f".toList, 1⟩, ⟨3, "ab ".toList, 3⟩] ≠ "ab cdef".toList := by
  exact ⟨by rfl, by decide⟩

/-! ### Witnesses -/

theorem C1_token_count_within_budget_witness :
    split_text_into_chunks get_weight_ascii tokLen 3 false "ab cdef".toList =
      .ok [⟨0, "ab ".toList, 3⟩, ⟨3, "cde".toList, 3⟩, ⟨6, "f".toList, 1⟩,
        ⟨3, "ab ".toList, 3⟩] ∧
    ((⟨0, "ab ".toList, 3⟩ : Chunk).token_count : Int) ≤ 3 :=
  ⟨by rfl,
    C1_token_count_within_budget get_weight_ascii tokLen 3 false
      "ab cdef".toList
      [⟨0, "ab ".toList, 3⟩, ⟨3, "cde".toList, 3⟩, ⟨6, "f".toList, 1⟩,
        ⟨3, "ab ".toList, 3⟩]
      (by rfl) _ (by decide)⟩

theorem C2_token_count_exact_of_additive_witness :
    split_text_into_chunks get_weight_ascii tokLen 4 true "ab".toList =
      .ok [⟨0, "ab".toList, 2⟩] ∧
    (⟨0, "ab".toList, 2⟩ : Chunk).token_count =
      get_token_count tokLen (Int.toNat 4) (⟨0, "ab".toList, 2⟩ : Chunk).text :=
  ⟨by rfl,
    C2_token_count_exact_of_additive get_weight_ascii tokLen 4 true
      "ab".toList [⟨0, "ab".toList, 2⟩]
      (fun a b => List.length_append a b) (by rfl) _ (by decide)⟩

theorem C5_single_chunk_of_additive_witness :
    split_text_into_chunks get_weight_ascii tokLen 4 true "ab".toList =
      .ok [⟨0, "ab".toList, tokLen "ab".toList⟩] :=
  C5_single_chunk_of_additive get_weight_ascii tokLen 4 true "ab".toList
    (fun a b => List.length_append a b) (by decide) (by decide) (by decide)

theorem C6_single_char_unsplittable_witness :
    split_text_into_chunks get_weight_ascii tokLenSucc 1 true ['q'] =
      .error .unsplittable :=
  C6_single_char_unsplittable get_weight_ascii tokLenSucc 1 true 'q'
    (by decide) (by decide)

theorem C7_redistribution_tie_break_witness :
    best_split_scan get_weight_ascii tokLen 4 "ab. cd".toList "x".toList
      ("ab. cd".toList.length - 1) none (-1) = some 3 ∧
    validSplit tokLen 4 "ab. cd".toList "x".toList 3 ∧
    posWeight get_weight_ascii "ab. cd".toList 4 <
      posWeight get_weight_ascii "ab. cd".toList 3 := by
  refine ⟨by rfl, ?_, ?_⟩
  · exact ((C7_redistribution_tie_break get_weight_ascii tokLen 4
      "ab. cd".toList "x".toList).1 3 (by rfl)).2.2.1
  · exact (((C7_redistribution_tie_break get_weight_ascii tokLen 4
      "ab. cd".toList "x".toList).1 3 (by rfl)).2.2.2 4 (by decide) (by decide)
      ⟨by decide, by decide⟩).1 (by decide)

theorem C8_config_error_witness :
    split_text_into_chunks get_weight_ascii tokLen 0 true "ab".toList =
      .error .configError :=
  C8_config_error get_weight_ascii tokLen 0 true "ab".toList (by decide)

theorem C10_empty_input_witness :
    split_text_into_chunks get_weight_ascii tokLen 3 true [] = .ok [] :=
  C10_empty_input get_weight_ascii tokLen 3 true (by decide)
